import Mathlib

/-!
Verification of the Chimera build pipeline (`src/build/ChimeraBuild.cpp`).

Shallow embedding conventions:
* machine integers (`uint64_t`, `size_t`) are modelled as `Nat`; the quantities
  involved (counts, bin sizes, indices) are far below `2^64` in every statement
  proved here, so wrap-around is never exercised;
* `double` arithmetic on loads is modelled exactly over `ℚ` (the comparisons in
  the concrete theorems below are all exact in binary floating point as well);
* the OpenMP parallel loops write disjoint locations (or reduce with `+`), so
  they are embedded as the equivalent sequential folds / maps over the same
  index ranges;
* `robin_hood::unordered_map` iteration order is unspecified; maps that the
  code materialises and iterates are embedded as association lists in an
  arbitrary fixed order (`List (String × Nat)`), matching the code's
  `taxid_count_vector` materialisation.
-/

namespace ChimeraBuild

/-! ## Bin Assigner: chunked parallel prefix sum (`calculateTaxidMapBins`, lines 337-377) -/

/-- Running inclusive sum of a list starting from accumulator `a`; this is the
thread-local loop `local_sum += binNums[i]; prefixSum[i] = local_sum;`. -/
def scan1 (a : Nat) : List Nat → List Nat
  | [] => []
  | x :: xs => (a + x) :: scan1 (a + x) xs

/-- Chunk start of thread `t`: `size_t start = tid * num_taxids / num_threads;`. -/
def chunkStart (P n t : Nat) : Nat := t * n / P

/-- Chunk end of thread `t`: `size_t end = (tid + 1) * num_taxids / num_threads;`
overridden to `num_taxids` for the last thread. -/
def chunkEnd (P n t : Nat) : Nat := if t = P - 1 then n else (t + 1) * n / P

/-- The slice of the vector owned by thread `t`. -/
def chunkOf (P : Nat) (v : List Nat) (t : Nat) : List Nat :=
  (v.drop (chunkStart P v.length t)).take (chunkEnd P v.length t - chunkStart P v.length t)

/-- `threadSums[tid] = local_sum`: after the local scan, `local_sum` holds the
chunk's total. -/
def threadSums (P : Nat) (v : List Nat) (t : Nat) : Nat := (chunkOf P v t).sum

/-- Exclusive prefix of the thread totals:
`offsets[i] = offsets[i - 1] + threadSums[i - 1]`, `offsets[0] = 0`. -/
def offsets (P : Nat) (v : List Nat) : Nat → Nat
  | 0 => 0
  | t + 1 => offsets P v t + threadSums P v t

/-- The chunked parallel inclusive prefix sum of `calculateTaxidMapBins`:
each thread scans its chunk locally (phase 1), then adds its exclusive offset
to every entry of its chunk (phase 2).  The chunks tile the index range in
order, so the concatenation of the per-thread results is the full array. -/
def chunkedPrefixSum (P : Nat) (v : List Nat) : List Nat :=
  ((List.range P).map fun t =>
    (scan1 0 (chunkOf P v t)).map fun x => x + offsets P v t).flatten

/-! ## Input Parser (`parseInputFile`, lines 56-80) -/

/-- Modelled from the spec: the `FileInfo` struct is declared in the header
`ChimeraBuild.hpp`, which is not under `src/`; per the spec's data model it
carries the monotonic counters `fileNum`, `invalidNum`, `sequenceNum`,
`skippedNum`, `bpLength`, exactly the fields the `.cpp` updates. -/
structure FileInfo where
  fileNum : Nat
  invalidNum : Nat
  sequenceNum : Nat
  skippedNum : Nat
  bpLength : Nat
deriving Repr, DecidableEq

/-- The zero-initialised `FileInfo`. -/
def FileInfo.init : FileInfo := ⟨0, 0, 0, 0, 0⟩

/-- State mutated by `parseInputFile`: the two maps (modelled as partial
functions, `none` meaning the key is absent) and the statistics. -/
structure ParseState where
  inputFiles : String → Option (List String)
  hashCount : String → Option Nat
  fileInfo : FileInfo

/-- The empty initial state of `run` before parsing. -/
def ParseState.init : ParseState :=
  { inputFiles := fun _ => none, hashCount := fun _ => none, fileInfo := FileInfo.init }

/-- Point update of a string-keyed map. -/
def updFn (m : String → Option α) (k : String) (v : α) : String → Option α :=
  fun k' => if k' = k then some v else m k'

/-- One iteration of the `while (std::getline(...))` loop of `parseInputFile`.
A line is modelled as its list of whitespace-separated tokens, matching the
semantics of `iss >> filePath >> taxidStr` (which succeeds exactly when at
least two tokens are present, taking the first two and ignoring the rest).
On success the code runs `hashCount[taxidStr] = 0;
inputFiles[taxidStr].push_back(filePath); fileInfo.fileNum++;`; on failure it
runs `fileInfo.invalidNum++; continue;`. -/
def parseLine (st : ParseState) (line : List String) : ParseState :=
  match line with
  | path :: taxid :: _ =>
      { inputFiles := updFn st.inputFiles taxid ((st.inputFiles taxid).getD [] ++ [path])
        hashCount := updFn st.hashCount taxid 0
        fileInfo := { st.fileInfo with fileNum := st.fileInfo.fileNum + 1 } }
  | _ =>
      { st with fileInfo := { st.fileInfo with invalidNum := st.fileInfo.invalidNum + 1 } }

/-- `parseInputFile`: fold `parseLine` over the manifest lines, starting from
the empty maps built in `run`. -/
def parseInputFile (lines : List (List String)) : ParseState :=
  lines.foldl parseLine ParseState.init

/-! ## Minimizer Counter (`minimiser_count`, lines 149-232) -/

/-- A sequence record as delivered by the external `seqan3` reader, abstracted
to what `minimiser_count` inspects: the sequence length and the stream of
64-bit minimizer hashes produced by the (external) `minimiser_hash` view. -/
structure SeqRecord where
  len : Nat
  minimizers : List Nat
deriving Repr, DecidableEq

/-- Insertion of one hash into the per-file
`robin_hood::unordered_set<uint64_t> hashes`. -/
def insertHash (s : List Nat) (h : Nat) : List Nat :=
  if h ∈ s then s else h :: s

/-- `hashes.insert(minihash.begin(), minihash.end())`. -/
def insertAll (s : List Nat) (l : List Nat) : List Nat := l.foldl insertHash s

/-- The per-file record loop: a sequence with `seq.size() < config.min_length`
is skipped (`skippedNum++; continue;`), the others contribute their minimizer
stream to the per-file set `hashes`.  (The `sequenceNum`/`bpLength` counters
are not modelled; no claim mentions them.) -/
def fileHashes (min_length : Nat) (f : List SeqRecord) : List Nat :=
  f.foldl (fun H r => if r.len < min_length then H else insertAll H r.minimizers) []

/-- Final value of `hashCount[taxid]` produced by `minimiser_count` for one
taxid, given the contents of its files: each `(taxid, file)` pair adds
`hashes.size()` to `threadHashCount[taxid]`, and the thread-local maps are
added into `hashCount[taxid]` under the global mutex, so the final value is
the sum over the taxid's files of the per-file set sizes (the thread
partition of the pairs is irrelevant to a sum). -/
def minimiser_count (min_length : Nat) (files : List (List SeqRecord)) : Nat :=
  (files.map fun f => (fileHashes min_length f).length).sum

/-- The per-file list of minimizers of qualifying sequences, in stream order. -/
def qualifyingMinis (min_length : Nat) (f : List SeqRecord) : List Nat :=
  ((f.filter fun r => !decide (r.len < min_length)).map SeqRecord.minimizers).flatten

/-- Number of distinct minimizers in one file (over qualifying sequences). -/
def perFileDistinct (min_length : Nat) (f : List SeqRecord) : Nat :=
  (qualifyingMinis min_length f).dedup.length

/-- Number of distinct minimizers across all of a taxid's files — the quantity
the claim says `hashCount[t]` equals. -/
def distinctAcrossFiles (min_length : Nat) (files : List (List SeqRecord)) : Nat :=
  ((files.map (qualifyingMinis min_length)).flatten).dedup.length

/-! ## Filter Sizer (`calculateFilterSize`, lines 271-310) -/

/-- Modelled from the spec: the `ICFConfig` struct is declared in the header
`ChimeraBuild.hpp`, which is not under `src/`; per the spec's data model its
fields are `kmer_size`, `window_size`, `bins` (a bin count) and `bin_size`
(a capacity per bin, in hashes), i.e. unsigned integers —
`calculateFilterSize` assigns the `uint64_t` values `bestBinNum` /
`bestBinSize` to `bins` / `bin_size`, and the ICF constructor takes them as
integral bin count and capacity. -/
structure ICFConfig where
  kmer_size : Nat
  window_size : Nat
  bins : Nat
  bin_size : Nat
deriving Repr, DecidableEq

/-- `getMaxValue` (lines 239-247). -/
def getMaxValue (hashCount : List (String × Nat)) : Nat :=
  hashCount.foldl (fun maxValue kv => if kv.2 > maxValue then kv.2 else maxValue) 0

/-- `calculateTotalSize` (lines 255-261). -/
def calculateTotalSize (hashCount : List (String × Nat)) : Nat :=
  hashCount.foldl (fun totalSize kv => totalSize + kv.2) 0

/-- Total bins needed for candidate `binSize`: the
`reduction(+:binNum)` loop `binNum += (count + binSize - 1) / binSize;`. -/
def binNumFor (hashCount : List (String × Nat)) (binSize : Nat) : Nat :=
  (hashCount.map fun kv => (kv.2 + binSize - 1) / binSize).sum

/-- `double load = static_cast<double>(totalSize) / (binNum * binSize);`,
modelled exactly over `ℚ`. -/
def loadOf (totalSize binNum binSize : Nat) : ℚ :=
  (totalSize : ℚ) / ((binNum : ℚ) * (binSize : ℚ))

/-- The `while (minBinSize <= maxBinSize)` binary search of
`calculateFilterSize`.  State: the bracket and the recorded best
`(bestBinSize, bestBinNum)`.  The `fuel` argument only makes the recursion
structural; every iteration shrinks `maxBinSize + 1 - minBinSize`, so a call
with at least that much fuel never hits the fuel-exhaustion branch. -/
def searchLoop (hashCount : List (String × Nat)) (totalSize : Nat) (load_factor : ℚ) :
    Nat → Nat → Nat → Nat → Nat → Nat × Nat
  | 0, _, _, bestBinSize, bestBinNum => (bestBinSize, bestBinNum)
  | fuel + 1, minBinSize, maxBinSize, bestBinSize, bestBinNum =>
    if minBinSize ≤ maxBinSize then
      let binSize := (minBinSize + maxBinSize) / 2
      let binNum := binNumFor hashCount binSize
      let load := loadOf totalSize binNum binSize
      if load > load_factor then
        searchLoop hashCount totalSize load_factor fuel
          (binSize + 1) maxBinSize bestBinSize bestBinNum
      else if load = load_factor then
        (binSize, binNum)
      else
        searchLoop hashCount totalSize load_factor fuel
          minBinSize (binSize - 1) binSize binNum
    else (bestBinSize, bestBinNum)

/-- `calculateFilterSize` (the `mode` parameter is accepted and never used, as
in the source).  Initial state: `minBinSize = 1`, `maxBinSize = maxValue * 2`,
`bestBinSize = maxBinSize`, `bestBinNum = 0`; on termination the code runs
`icfConfig.bins = bestBinNum; icfConfig.bin_size = bestBinSize;`. -/
def calculateFilterSize (hashCount : List (String × Nat)) (icfConfig : ICFConfig)
    (load_factor : ℚ) (mode : String) : ICFConfig :=
  let maxValue := getMaxValue hashCount
  let totalSize := calculateTotalSize hashCount
  let maxBinSize := maxValue * 2
  let r := searchLoop hashCount totalSize load_factor (maxBinSize + 1) 1 maxBinSize maxBinSize 0
  { icfConfig with bins := r.2, bin_size := r.1 }

/-- Verification-side predicate on a search result `(bestBinSize, bestBinNum)`:
it is a genuinely recorded candidate — its bin count is the one computed for
its bin size, the bin size is in range, and its load meets the target. -/
def FeasibleResult (hashCount : List (String × Nat)) (totalSize : Nat)
    (load_factor : ℚ) (r : Nat × Nat) : Prop :=
  r.2 = binNumFor hashCount r.1 ∧ 1 ≤ r.1
    ∧ loadOf totalSize r.2 r.1 ≤ load_factor

/-! ## Bin Assigner top level (`calculateTaxidMapBins`, lines 318-394) -/

/-- Per-taxid bin requirement:
`binNums[i] = static_cast<std::size_t>(std::ceil(count / config.bin_size));`.
`count` (`uint64_t`) and `config.bin_size` (unsigned, see `ICFConfig`) make
`count / config.bin_size` C++ integer division, so `std::ceil` is the identity
on its integral value: the computed requirement is the floor of
`count / bin_size`, not the ceiling. -/
def binNumsOf (config : ICFConfig) (taxid_count_vector : List (String × Nat)) : List Nat :=
  taxid_count_vector.map fun kv => kv.2 / config.bin_size

/-- `calculateTaxidMapBins` with `P` threads: materialise the map into
`taxid_count_vector` (the association-list order stands for the map's
iteration order), compute `binNums`, run the chunked parallel prefix sum, and
pair each taxid with its prefix value (`temp_bins`, then `taxidBins.emplace`
in the same order). -/
def calculateTaxidMapBins (P : Nat) (config : ICFConfig)
    (hashCount : List (String × Nat)) : List (String × Nat) :=
  List.zipWith (fun kv p => (kv.1, p)) hashCount
    (chunkedPrefixSum P (binNumsOf config hashCount))

/-! ## Filter Builder (`processTaxid`, lines 404-439) -/

/-- The read-insert loop of `processTaxid`: each hash read from the scratch
file is inserted at the current position (`icf.insertTag(currentPos, hash)`,
recorded here as a `(position, hash)` pair); then `currentPos++`, and only
after the increment `currentPos` is reset to `start` when it equals `end`. -/
def insertLoop (start stop : Nat) : Nat → List Nat → List (Nat × Nat)
  | _, [] => []
  | currentPos, hash :: rest =>
      let next := currentPos + 1
      (currentPos, hash) ::
        insertLoop start stop (if next = stop then start else next) rest

/-- Result of `processTaxid` on a readable scratch file: the sequence of
`insertTag` calls and whether `std::filesystem::remove` on the scratch file
was reached (it is, unconditionally, once the file opened). -/
structure TaxidProcessResult where
  insertions : List (Nat × Nat)
  scratchRemoved : Bool
deriving Repr, DecidableEq

/-- `processTaxid(taxid, start, end, icf)` applied to the scratch-file
contents `hashes`: `size_t currentPos = start;`, the read-insert loop, then
the scratch file is removed. -/
def processTaxid (start stop : Nat) (hashes : List Nat) : TaxidProcessResult :=
  { insertions := insertLoop start stop start hashes, scratchRemoved := true }

/-! ## Theorems -/

theorem scan1_append (a : Nat) (l₁ l₂ : List Nat) :
    scan1 a (l₁ ++ l₂) = scan1 a l₁ ++ scan1 (a + l₁.sum) l₂ := by
  induction l₁ generalizing a with
  | nil => simp [scan1]
  | cons x xs ih =>
      show scan1 a (x :: (xs ++ l₂)) = scan1 a (x :: xs) ++ scan1 (a + (x :: xs).sum) l₂
      rw [scan1, ih, scan1, List.sum_cons, ← Nat.add_assoc, List.cons_append]

theorem scan1_map_add (a c : Nat) (l : List Nat) :
    (scan1 a l).map (fun x => x + c) = scan1 (a + c) l := by
  induction l generalizing a with
  | nil => rfl
  | cons x xs ih =>
      simp only [scan1, List.map_cons, ih, List.cons.injEq]
      constructor <;> [omega; rw [Nat.add_right_comm]]

theorem chunkStart_le_succ (P n t : Nat) : chunkStart P n t ≤ chunkStart P n (t + 1) :=
  Nat.div_le_div_right (Nat.mul_le_mul_right n (Nat.le_succ t))

theorem chunkStart_self (P n : Nat) (hP : 0 < P) : chunkStart P n P = n := by
  unfold chunkStart
  rw [Nat.mul_comm, Nat.mul_div_cancel _ hP]

theorem chunkEnd_eq (P n t : Nat) (hP : 0 < P) (ht : t < P) :
    chunkEnd P n t = chunkStart P n (t + 1) := by
  unfold chunkEnd
  by_cases h : t = P - 1
  · have : t + 1 = P := by omega
    rw [if_pos h, this, chunkStart_self P n hP]
  · rw [if_neg h]; rfl

theorem join_chunks_aux (P : Nat) (hP : 0 < P) (v : List Nat) :
    ∀ k, k ≤ P →
      ((List.range k).map (chunkOf P v)).flatten = v.take (chunkStart P v.length k) := by
  intro k
  induction k with
  | zero => intro _; simp [chunkStart]
  | succ k ih =>
      intro hk
      have hkP : k < P := hk
      rw [List.range_succ, List.map_append, List.flatten_append, ih (Nat.le_of_lt hkP)]
      simp only [List.map_cons, List.map_nil, List.flatten_cons, List.flatten_nil,
        List.append_nil]
      unfold chunkOf
      rw [chunkEnd_eq P v.length k hP hkP, ← List.take_add,
        Nat.add_sub_cancel' (chunkStart_le_succ P v.length k)]

/-- The per-thread chunks tile the vector in index order. -/
theorem join_chunks (P : Nat) (hP : 0 < P) (v : List Nat) :
    ((List.range P).map (chunkOf P v)).flatten = v := by
  rw [join_chunks_aux P hP v P (Nat.le_refl P), chunkStart_self P v.length hP,
    List.take_length]

theorem join_scan_chunks (P : Nat) (v : List Nat) :
    ∀ (k t₀ : Nat),
      ((List.range' t₀ k).map fun t => scan1 (offsets P v t) (chunkOf P v t)).flatten
        = scan1 (offsets P v t₀) (((List.range' t₀ k).map (chunkOf P v)).flatten) := by
  intro k
  induction k with
  | zero => intro t₀; rfl
  | succ k ih =>
      intro t₀
      rw [List.range'_succ]
      simp only [List.map_cons, List.flatten_cons]
      rw [ih (t₀ + 1), scan1_append]
      have : offsets P v (t₀ + 1) = offsets P v t₀ + (chunkOf P v t₀).sum := rfl
      rw [this]

/-- The chunked parallel prefix sum equals the sequential inclusive scan. -/
theorem chunkedPrefixSum_eq_scan1 (P : Nat) (hP : 0 < P) (v : List Nat) :
    chunkedPrefixSum P v = scan1 0 v := by
  unfold chunkedPrefixSum
  simp only [scan1_map_add, Nat.zero_add]
  rw [List.range_eq_range', join_scan_chunks P v P 0, ← List.range_eq_range',
    join_chunks P hP v]
  rfl

theorem scan1_getD (l : List Nat) :
    ∀ (a i : Nat), i < l.length → (scan1 a l).getD i 0 = a + (l.take (i + 1)).sum := by
  induction l with
  | nil => intro a i h; simp at h
  | cons x xs ih =>
      intro a i h
      cases i with
      | zero => simp [scan1]
      | succ j =>
          have hj : j < xs.length := by simpa using h
          simp only [scan1, List.getD_cons_succ, List.take_succ_cons, List.sum_cons]
          rw [ih (a + x) j hj, Nat.add_assoc]

theorem parseLine_keys (st : ParseState) (line : List String)
    (h : ∀ t, (st.hashCount t).isSome = (st.inputFiles t).isSome) :
    ∀ t, ((parseLine st line).hashCount t).isSome
      = ((parseLine st line).inputFiles t).isSome := by
  intro t
  match line with
  | [] => exact h t
  | [x] => exact h t
  | path :: taxid :: rest =>
      simp only [parseLine, updFn]
      by_cases ht : t = taxid
      · rw [if_pos ht, if_pos ht]; rfl
      · rw [if_neg ht, if_neg ht]; exact h t

theorem parseInputFile_keys_aux (lines : List (List String)) :
    ∀ (st : ParseState),
      (∀ t, (st.hashCount t).isSome = (st.inputFiles t).isSome) →
      ∀ t, ((lines.foldl parseLine st).hashCount t).isSome
        = ((lines.foldl parseLine st).inputFiles t).isSome := by
  induction lines with
  | nil => intro st h t; exact h t
  | cons l ls ih =>
      intro st h t
      exact ih (parseLine st l) (parseLine_keys st l h) t

/-- Claim C8: the chunked parallel prefix sum of `calculateTaxidMapBins`
(per-thread local inclusive prefixes, exclusive prefix of thread totals as
offsets, then offset addition) computes, for every index `i` and every thread
count `P ≥ 1`, the sequential inclusive prefix sum of the per-taxid bin
requirements: `prefixSum[i] = Σ_{j ≤ i} binNums[j]`. -/
theorem C8_chunked_prefix_sum_correct (P : Nat) (hP : 1 ≤ P) (v : List Nat)
    (i : Nat) (hi : i < v.length) :
    (chunkedPrefixSum P v).getD i 0 = (v.take (i + 1)).sum := by
  rw [chunkedPrefixSum_eq_scan1 P hP v, scan1_getD v 0 i hi, Nat.zero_add]

/-- Witness for C8 at `P = 2`, `binNums = [3, 1, 4]`, `i = 1`. -/
theorem C8_witness :
    1 ≤ 2 ∧ 1 < [3, 1, 4].length
    ∧ (chunkedPrefixSum 2 [3, 1, 4]).getD 1 0 = ([3, 1, 4].take 2).sum :=
  ⟨by decide, by decide, C8_chunked_prefix_sum_correct 2 (by decide) [3, 1, 4] 1 (by decide)⟩

/-- Claim C9: `parseInputFile` processes each line independently: a line with
at least two whitespace-separated tokens `path`, `taxid` appends `path` to
`inputFiles[taxid]`, leaves `hashCount[taxid] = 0`, increments
`fileInfo.fileNum` and changes nothing else; any other line (fewer than two
tokens) only increments `fileInfo.invalidNum`; and after parsing, `hashCount`
and `inputFiles` have equal key sets. -/
theorem C9_parseInputFile_line_semantics :
    (∀ (st : ParseState) (path taxid : String) (rest : List String),
      (parseLine st (path :: taxid :: rest)).inputFiles taxid
          = some ((st.inputFiles taxid).getD [] ++ [path])
      ∧ (parseLine st (path :: taxid :: rest)).hashCount taxid = some 0
      ∧ (parseLine st (path :: taxid :: rest)).fileInfo.fileNum = st.fileInfo.fileNum + 1
      ∧ (parseLine st (path :: taxid :: rest)).fileInfo.invalidNum = st.fileInfo.invalidNum
      ∧ (parseLine st (path :: taxid :: rest)).fileInfo.sequenceNum = st.fileInfo.sequenceNum
      ∧ (parseLine st (path :: taxid :: rest)).fileInfo.skippedNum = st.fileInfo.skippedNum
      ∧ (parseLine st (path :: taxid :: rest)).fileInfo.bpLength = st.fileInfo.bpLength
      ∧ (∀ t, t ≠ taxid →
          (parseLine st (path :: taxid :: rest)).inputFiles t = st.inputFiles t
          ∧ (parseLine st (path :: taxid :: rest)).hashCount t = st.hashCount t))
    ∧ (∀ st : ParseState, parseLine st []
        = { st with fileInfo := { st.fileInfo with invalidNum := st.fileInfo.invalidNum + 1 } })
    ∧ (∀ (st : ParseState) (x : String), parseLine st [x]
        = { st with fileInfo := { st.fileInfo with invalidNum := st.fileInfo.invalidNum + 1 } })
    ∧ (∀ (lines : List (List String)) (t : String),
        ((parseInputFile lines).hashCount t).isSome
          = ((parseInputFile lines).inputFiles t).isSome) := by
  refine ⟨?_, fun st => rfl, fun st x => rfl, ?_⟩
  · intro st path taxid rest
    refine ⟨?_, ?_, rfl, rfl, rfl, rfl, rfl, ?_⟩
    · simp [parseLine, updFn]
    · simp [parseLine, updFn]
    · intro t ht
      constructor <;> simp [parseLine, updFn, ht]
  · intro lines t
    exact parseInputFile_keys_aux lines ParseState.init (fun _ => rfl) t

/-- Witness for C9 at a concrete manifest. -/
theorem C9_witness :
    ("2" : String) ≠ "1"
    ∧ (parseLine ParseState.init ["A.fa", "1", "x"]).hashCount "1" = some 0
    ∧ (parseLine ParseState.init ["A.fa", "1", "x"]).hashCount "2"
        = ParseState.init.hashCount "2"
    ∧ ((parseInputFile [["A.fa", "1"], ["bad"]]).hashCount "7").isSome
        = ((parseInputFile [["A.fa", "1"], ["bad"]]).inputFiles "7").isSome :=
  ⟨by decide,
   (C9_parseInputFile_line_semantics.1 ParseState.init "A.fa" "1" ["x"]).2.1,
   ((C9_parseInputFile_line_semantics.1 ParseState.init "A.fa" "1" ["x"]).2.2.2.2.2.2.2
     "2" (by decide)).2,
   C9_parseInputFile_line_semantics.2.2.2 [["A.fa", "1"], ["bad"]] "7"⟩

theorem insertLoop_getD (start stop : Nat) (hlt : start < stop) :
    ∀ (hashes : List Nat) (pos : Nat), start ≤ pos → pos < stop →
      ∀ j, j < hashes.length →
        (insertLoop start stop pos hashes).getD j (0, 0)
          = (start + (pos - start + j) % (stop - start), hashes.getD j 0) := by
  intro hashes
  induction hashes with
  | nil => intro pos _ _ j hj; simp at hj
  | cons h hs ih =>
      intro pos hsp hps j hj
      cases j with
      | zero =>
          have h1 : (pos - start + 0) % (stop - start) = pos - start := by
            rw [Nat.add_zero]; exact Nat.mod_eq_of_lt (by omega)
          simp only [insertLoop, List.getD_cons_zero]
          rw [h1]
          congr 1
          omega
      | succ j =>
          simp only [insertLoop, List.getD_cons_succ]
          by_cases he : pos + 1 = stop
          · rw [if_pos he, ih start (Nat.le_refl start) hlt j (by simpa using hj)]
            have h2 : pos - start + (j + 1) = (stop - start) + j := by omega
            rw [h2, Nat.add_mod_left, Nat.sub_self, Nat.zero_add]
          · rw [if_neg he, ih (pos + 1) (by omega) (by omega) j (by simpa using hj)]
            have h3 : pos + 1 - start + j = pos - start + (j + 1) := by omega
            rw [h3]

theorem insertLoop_mem_range (start stop : Nat) (hlt : start < stop) :
    ∀ (hashes : List Nat) (pos : Nat), start ≤ pos → pos < stop →
      ∀ pr ∈ insertLoop start stop pos hashes, start ≤ pr.1 ∧ pr.1 < stop := by
  intro hashes
  induction hashes with
  | nil => intro pos _ _ pr hpr; simp [insertLoop] at hpr
  | cons h hs ih =>
      intro pos hsp hps pr hpr
      simp only [insertLoop, List.mem_cons] at hpr
      rcases hpr with rfl | hpr
      · exact ⟨hsp, hps⟩
      · by_cases he : pos + 1 = stop
        · rw [if_pos he] at hpr
          exact ih start (Nat.le_refl start) hlt pr hpr
        · rw [if_neg he] at hpr
          exact ih (pos + 1) (by omega) (by omega) pr hpr

/-- Claim C7: for a taxid with range `[start, end)` and `start < end`,
`processTaxid` inserts the `j`-th hash read from the scratch file (0-based) at
bin index `start + (j mod (end − start))`; consequently every hash written to
the scratch file is inserted at some bin in `[start, end)`, and the scratch
file is deleted afterwards. -/
theorem C7_processTaxid_round_robin (start stop : Nat) (hashes : List Nat)
    (hlt : start < stop) :
    (∀ j, j < hashes.length →
      (processTaxid start stop hashes).insertions.getD j (0, 0)
        = (start + j % (stop - start), hashes.getD j 0))
    ∧ (∀ pr ∈ (processTaxid start stop hashes).insertions,
        start ≤ pr.1 ∧ pr.1 < stop)
    ∧ (processTaxid start stop hashes).scratchRemoved = true := by
  refine ⟨?_, ?_, rfl⟩
  · intro j hj
    have h := insertLoop_getD start stop hlt hashes start (Nat.le_refl start) hlt j hj
    rwa [Nat.sub_self, Nat.zero_add] at h
  · intro pr hpr
    exact insertLoop_mem_range start stop hlt hashes start (Nat.le_refl start) hlt pr hpr

/-- Witness for C7: range `[0, 2)`, three hashes; the third goes back to bin
`0 = 0 + 2 mod 2`. -/
theorem C7_witness :
    0 < 2
    ∧ (processTaxid 0 2 [10, 20, 30]).insertions.getD 2 (0, 0)
        = (0 + 2 % 2, [10, 20, 30].getD 2 0)
    ∧ (processTaxid 0 2 [10, 20, 30]).scratchRemoved = true :=
  ⟨by decide,
   (C7_processTaxid_round_robin 0 2 [10, 20, 30] (by decide)).1 2 (by decide),
   (C7_processTaxid_round_robin 0 2 [10, 20, 30] (by decide)).2.2⟩

theorem insertLoop_zero_width (start : Nat) :
    ∀ (hashes : List Nat) (pos : Nat), start ≤ pos →
      ∀ j, j < hashes.length →
        (insertLoop start start pos hashes).getD j (0, 0) = (pos + j, hashes.getD j 0) := by
  intro hashes
  induction hashes with
  | nil => intro pos _ j hj; simp at hj
  | cons h hs ih =>
      intro pos hsp j hj
      cases j with
      | zero => simp [insertLoop]
      | succ j =>
          have hne : ¬ (pos + 1 = start) := by omega
          simp only [insertLoop, List.getD_cons_succ]
          rw [if_neg hne, ih (pos + 1) (by omega) j (by simpa using hj)]
          congr 1
          omega

/-- Claim C10: if `processTaxid` is called with `start == end` on a non-empty
scratch file, the wrap-around check (performed only after the increment)
never fires: the `j`-th hash is inserted at bin `start + j`, which lies
outside the (empty) assigned range `[start, end)`, and once the file holds
more hashes than `binCount − start` the positions pass any bin count
`binCount` of the filter. -/
theorem C10_processTaxid_zero_width (start stop : Nat) (hashes : List Nat)
    (hz : stop = start) (hne : hashes ≠ []) :
    (∀ j, j < hashes.length →
      ((processTaxid start stop hashes).insertions.getD j (0, 0)).1 = start + j
      ∧ ¬ (start ≤ start + j ∧ start + j < stop))
    ∧ (∀ binCount, binCount < start + hashes.length →
        ∃ j, j < hashes.length ∧ binCount ≤ start + j) := by
  subst hz
  constructor
  · intro j hj
    refine ⟨?_, by omega⟩
    have h := insertLoop_zero_width stop hashes stop (Nat.le_refl stop) j hj
    show ((insertLoop stop stop stop hashes).getD j (0, 0)).1 = stop + j
    rw [h]
  · intro binCount hbc
    have hlen : 1 ≤ hashes.length := by
      cases hashes with
      | nil => exact absurd rfl hne
      | cons a as => exact Nat.succ_le_succ (Nat.zero_le _)
    exact ⟨hashes.length - 1, by omega, by omega⟩

/-- Witness for C10: `start = end = 3`, two hashes; the second lands at bin
`4`, outside the empty range `[3, 3)`. -/
theorem C10_witness :
    (3 : Nat) = 3 ∧ ([7, 8] : List Nat) ≠ []
    ∧ ((processTaxid 3 3 [7, 8]).insertions.getD 1 (0, 0)).1 = 3 + 1
    ∧ ¬ (3 ≤ 3 + 1 ∧ 3 + 1 < 3) :=
  ⟨rfl, by decide,
   ((C10_processTaxid_zero_width 3 3 [7, 8] rfl (by decide)).1 1 (by decide)).1,
   ((C10_processTaxid_zero_width 3 3 [7, 8] rfl (by decide)).1 1 (by decide)).2⟩

theorem insertHash_nodup (s : List Nat) (h : Nat) (hs : s.Nodup) : (insertHash s h).Nodup := by
  unfold insertHash
  by_cases hm : h ∈ s
  · rwa [if_pos hm]
  · rw [if_neg hm]; exact List.nodup_cons.mpr ⟨hm, hs⟩

theorem insertHash_toFinset (s : List Nat) (h : Nat) :
    (insertHash s h).toFinset = insert h s.toFinset := by
  unfold insertHash
  by_cases hm : h ∈ s
  · rw [if_pos hm]
    exact (Finset.insert_eq_self.mpr (List.mem_toFinset.mpr hm)).symm
  · rw [if_neg hm]; simp

theorem insertAll_nodup (l : List Nat) : ∀ s, s.Nodup → (insertAll s l).Nodup := by
  induction l with
  | nil => intro s hs; exact hs
  | cons x xs ih => intro s hs; exact ih _ (insertHash_nodup s x hs)

theorem insertAll_toFinset (l : List Nat) :
    ∀ s, (insertAll s l).toFinset = s.toFinset ∪ l.toFinset := by
  induction l with
  | nil => intro s; simp [insertAll]
  | cons x xs ih =>
      intro s
      show (insertAll (insertHash s x) xs).toFinset = _
      rw [ih, insertHash_toFinset, List.toFinset_cons, Finset.insert_union,
        Finset.union_insert]

theorem fileHashes_fold_nodup (min_length : Nat) (f : List SeqRecord) :
    ∀ s : List Nat, s.Nodup →
      (f.foldl (fun H r => if r.len < min_length then H else insertAll H r.minimizers) s).Nodup := by
  induction f with
  | nil => intro s hs; exact hs
  | cons r rs ih =>
      intro s hs
      simp only [List.foldl_cons]
      by_cases hr : r.len < min_length
      · rw [if_pos hr]; exact ih s hs
      · rw [if_neg hr]; exact ih _ (insertAll_nodup _ s hs)

theorem fileHashes_fold_toFinset (min_length : Nat) (f : List SeqRecord) :
    ∀ s : List Nat,
      (f.foldl (fun H r => if r.len < min_length then H else insertAll H r.minimizers) s).toFinset
        = s.toFinset ∪ (qualifyingMinis min_length f).toFinset := by
  induction f with
  | nil => intro s; simp [qualifyingMinis]
  | cons r rs ih =>
      intro s
      simp only [List.foldl_cons]
      by_cases hr : r.len < min_length
      · rw [if_pos hr, ih]
        have hq : qualifyingMinis min_length (r :: rs) = qualifyingMinis min_length rs := by
          unfold qualifyingMinis
          rw [List.filter_cons_of_neg (by simp [hr])]
        rw [hq]
      · rw [if_neg hr, ih, insertAll_toFinset]
        have hq : qualifyingMinis min_length (r :: rs)
            = r.minimizers ++ qualifyingMinis min_length rs := by
          unfold qualifyingMinis
          rw [List.filter_cons_of_pos (by simp [hr])]
          rfl
        rw [hq, List.toFinset_append, Finset.union_assoc]

theorem fileHashes_length (min_length : Nat) (f : List SeqRecord) :
    (fileHashes min_length f).length = perFileDistinct min_length f := by
  have hn : (fileHashes min_length f).Nodup :=
    fileHashes_fold_nodup min_length f [] List.nodup_nil
  have ht : (fileHashes min_length f).toFinset
      = (qualifyingMinis min_length f).toFinset := by
    have h0 := fileHashes_fold_toFinset min_length f []
    simpa [fileHashes] using h0
  unfold perFileDistinct
  rw [← List.card_toFinset, ← ht, List.toFinset_card_of_nodup hn]

/-- Counterexample to C5 as stated: one taxid with two files, each holding one
qualifying sequence whose single minimizer hash is `5`.  Stage 2 computes
`hashCount[t] = 2` (each file contributes its own per-file distinct count),
while the number of distinct 64-bit minimizer hashes observed across all of
the taxid's files is `1`. -/
theorem C5_counterexample :
    minimiser_count 0 [[⟨10, [5]⟩], [⟨10, [5]⟩]] = 2
    ∧ distinctAcrossFiles 0 [[⟨10, [5]⟩], [⟨10, [5]⟩]] = 1
    ∧ (2 : Nat) ≠ 1 :=
  ⟨rfl, rfl, by decide⟩

/-- Claim C5 (amended): after stage 2, `hashCount[t]` equals the sum over the
taxid's files of the per-file distinct minimizer counts — the size of the
multiset union of the per-file distinct sets — which coincides with the
distinct count across files only when the per-file sets are disjoint. -/
theorem C5_amended_hashCount_sums_per_file (min_length : Nat)
    (files : List (List SeqRecord)) :
    minimiser_count min_length files
      = (files.map (perFileDistinct min_length)).sum := by
  unfold minimiser_count
  congr 1
  simp only [fileHashes_length]

theorem foldl_add_eq (l : List (String × Nat)) :
    ∀ a : Nat, l.foldl (fun totalSize kv => totalSize + kv.2) a = a + (l.map Prod.snd).sum := by
  induction l with
  | nil => intro a; simp
  | cons kv t ih =>
      intro a
      simp only [List.foldl_cons, List.map_cons, List.sum_cons, ih, Nat.add_assoc]

theorem calculateTotalSize_eq_sum (h : List (String × Nat)) :
    calculateTotalSize h = (h.map Prod.snd).sum := by
  unfold calculateTotalSize
  rw [foldl_add_eq h 0, Nat.zero_add]

theorem foldl_max_ge (l : List (String × Nat)) :
    ∀ a : Nat, a ≤ l.foldl (fun maxValue kv => if kv.2 > maxValue then kv.2 else maxValue) a := by
  induction l with
  | nil => intro a; exact Nat.le_refl a
  | cons kv t ih =>
      intro a
      simp only [List.foldl_cons]
      refine Nat.le_trans ?_ (ih _)
      by_cases hk : kv.2 > a
      · rw [if_pos hk]; omega
      · rw [if_neg hk]

theorem foldl_max_mem (l : List (String × Nat)) :
    ∀ (a : Nat) (kv : String × Nat), kv ∈ l →
      kv.2 ≤ l.foldl (fun maxValue kv => if kv.2 > maxValue then kv.2 else maxValue) a := by
  induction l with
  | nil => intro a kv hkv; simp at hkv
  | cons x t ih =>
      intro a kv hkv
      simp only [List.foldl_cons]
      rcases List.mem_cons.mp hkv with rfl | hm
      · refine Nat.le_trans ?_ (foldl_max_ge t _)
        by_cases hk : kv.2 > a
        · rw [if_pos hk]
        · rw [if_neg hk]; omega
      · exact ih _ kv hm

theorem getMaxValue_ge (h : List (String × Nat)) (kv : String × Nat) (hkv : kv ∈ h) :
    kv.2 ≤ getMaxValue h :=
  foldl_max_mem h 0 kv hkv

theorem ceilDiv_mul_ge (c b : Nat) (hb : 1 ≤ b) : c ≤ (c + b - 1) / b * b := by
  have h := Nat.div_add_mod (c + b - 1) b
  have h2 : (c + b - 1) % b < b := Nat.mod_lt _ (by omega)
  rw [Nat.mul_comm]
  omega

theorem calculateTotalSize_le_binNumFor (b : Nat) (hb : 1 ≤ b) :
    ∀ h : List (String × Nat), calculateTotalSize h ≤ binNumFor h b * b := by
  intro h
  rw [calculateTotalSize_eq_sum]
  unfold binNumFor
  induction h with
  | nil => simp
  | cons kv t ih =>
      simp only [List.map_cons, List.sum_cons, Nat.add_mul]
      exact Nat.add_le_add (ceilDiv_mul_ge kv.2 b hb) ih

theorem binNumFor_pos (h : List (String × Nat)) (b : Nat) (hb : 1 ≤ b)
    (kv : String × Nat) (hkv : kv ∈ h) (hc : 1 ≤ kv.2) : 1 ≤ binNumFor h b := by
  unfold binNumFor
  have h1 : 1 ≤ (kv.2 + b - 1) / b := (Nat.one_le_div_iff (by omega)).mpr (by omega)
  calc 1 ≤ (kv.2 + b - 1) / b := h1
  _ ≤ _ := List.single_le_sum (fun x _ => Nat.zero_le x) _
      (List.mem_map_of_mem (fun kv => (kv.2 + b - 1) / b) hkv)

theorem loadOf_le_iff (T N b : Nat) (L : ℚ) (hN : 1 ≤ N) (hb : 1 ≤ b) :
    loadOf T N b ≤ L ↔ (T : ℚ) ≤ L * ((N : ℚ) * (b : ℚ)) := by
  unfold loadOf
  rw [div_le_iff₀]
  have h1 : (0 : ℚ) < (N : ℚ) := by exact_mod_cast hN
  have h2 : (0 : ℚ) < (b : ℚ) := by exact_mod_cast hb
  exact mul_pos h1 h2

/-- Invariant lemma for the binary search: if either the current upper bound
`hi` passes the load test (so the search is guaranteed to record something
before moving past it) or the current best is already a recorded candidate,
then the returned best is a recorded candidate. -/
theorem searchLoop_feasible (h : List (String × Nat)) (T : Nat) (L : ℚ) :
    ∀ (fuel lo hi bB bN : Nat),
      1 ≤ lo → hi + 1 - lo ≤ fuel →
      ((lo ≤ hi ∧ loadOf T (binNumFor h hi) hi ≤ L)
        ∨ FeasibleResult h T L (bB, bN)) →
      FeasibleResult h T L (searchLoop h T L fuel lo hi bB bN) := by
  intro fuel
  induction fuel with
  | zero =>
      intro lo hi bB bN hlo hfuel hinv
      rcases hinv with ⟨hlh, _⟩ | hP
      · omega
      · exact hP
  | succ fuel ih =>
      intro lo hi bB bN hlo hfuel hinv
      rw [searchLoop]
      by_cases hlh : lo ≤ hi
      · rw [if_pos hlh]
        simp only
        have hblo : lo ≤ (lo + hi) / 2 := by omega
        have hbhi : (lo + hi) / 2 ≤ hi := by omega
        by_cases hgt : loadOf T (binNumFor h ((lo + hi) / 2)) ((lo + hi) / 2) > L
        · rw [if_pos hgt]
          refine ih ((lo + hi) / 2 + 1) hi bB bN (by omega) (by omega) ?_
          rcases hinv with ⟨_, hfeas⟩ | hP
          · left
            refine ⟨?_, hfeas⟩
            rcases Nat.lt_or_ge ((lo + hi) / 2) hi with hlt | hge
            · omega
            · have hbe : (lo + hi) / 2 = hi := by omega
              rw [hbe] at hgt
              exact absurd hfeas (not_le.mpr hgt)
          · right; exact hP
        · rw [if_neg hgt]
          by_cases heq : loadOf T (binNumFor h ((lo + hi) / 2)) ((lo + hi) / 2) = L
          · rw [if_pos heq]
            exact ⟨rfl, by omega, le_of_eq heq⟩
          · rw [if_neg heq]
            refine ih lo ((lo + hi) / 2 - 1) ((lo + hi) / 2) (binNumFor h ((lo + hi) / 2))
              hlo (by omega) ?_
            right
            exact ⟨rfl, by omega, le_of_not_lt hgt⟩
      · rw [if_neg hlh]
        rcases hinv with ⟨hlh', _⟩ | hP
        · exact absurd hlh' hlh
        · exact hP

theorem searchLoop_stop (h : List (String × Nat)) (T : Nat) (L : ℚ)
    (fuel lo hi bB bN : Nat) (hlh : ¬ lo ≤ hi) :
    searchLoop h T L fuel lo hi bB bN = (bB, bN) := by
  cases fuel with
  | zero => rfl
  | succ n => rw [searchLoop, if_neg hlh]

theorem searchLoop_step_gt (h : List (String × Nat)) (T : Nat) (L : ℚ)
    (fuel lo hi bB bN : Nat) (hf : fuel ≠ 0) (hlh : lo ≤ hi)
    (hgt : loadOf T (binNumFor h ((lo + hi) / 2)) ((lo + hi) / 2) > L) :
    searchLoop h T L fuel lo hi bB bN
      = searchLoop h T L (fuel - 1) ((lo + hi) / 2 + 1) hi bB bN := by
  cases fuel with
  | zero => exact absurd rfl hf
  | succ n =>
      rw [searchLoop, if_pos hlh]
      simp only [Nat.add_sub_cancel]
      rw [if_pos hgt]

theorem searchLoop_step_eq (h : List (String × Nat)) (T : Nat) (L : ℚ)
    (fuel lo hi bB bN : Nat) (hf : fuel ≠ 0) (hlh : lo ≤ hi)
    (heq : loadOf T (binNumFor h ((lo + hi) / 2)) ((lo + hi) / 2) = L) :
    searchLoop h T L fuel lo hi bB bN
      = ((lo + hi) / 2, binNumFor h ((lo + hi) / 2)) := by
  cases fuel with
  | zero => exact absurd rfl hf
  | succ n =>
      rw [searchLoop, if_pos hlh]
      simp only
      rw [if_neg (by rw [heq]; exact lt_irrefl L), if_pos heq]

theorem searchLoop_step_lt (h : List (String × Nat)) (T : Nat) (L : ℚ)
    (fuel lo hi bB bN : Nat) (hf : fuel ≠ 0) (hlh : lo ≤ hi)
    (hlt : loadOf T (binNumFor h ((lo + hi) / 2)) ((lo + hi) / 2) < L) :
    searchLoop h T L fuel lo hi bB bN
      = searchLoop h T L (fuel - 1) lo ((lo + hi) / 2 - 1) ((lo + hi) / 2)
          (binNumFor h ((lo + hi) / 2)) := by
  cases fuel with
  | zero => exact absurd rfl hf
  | succ n =>
      rw [searchLoop, if_pos hlh]
      simp only [Nat.add_sub_cancel]
      rw [if_neg (not_lt.mpr (le_of_lt hlt)), if_neg (ne_of_lt hlt)]

theorem count_le_binNum_mul_max (c M : Nat) (hc : c ≤ M) (hM : 1 ≤ M) :
    c ≤ (c + M * 2 - 1) / (M * 2) * M := by
  rcases Nat.eq_zero_or_pos c with rfl | hcpos
  · exact Nat.zero_le _
  · have h1 : 1 ≤ (c + M * 2 - 1) / (M * 2) :=
      (Nat.one_le_div_iff (by omega)).mpr (by omega)
    calc c ≤ M := hc
    _ = 1 * M := (Nat.one_mul M).symm
    _ ≤ (c + M * 2 - 1) / (M * 2) * M := Nat.mul_le_mul_right M h1

theorem totalSize_le_binNumFor_max (M : Nat) (hM : 1 ≤ M) :
    ∀ h : List (String × Nat), (∀ kv ∈ h, kv.2 ≤ M) →
      calculateTotalSize h ≤ binNumFor h (M * 2) * M := by
  intro h
  rw [calculateTotalSize_eq_sum]
  unfold binNumFor
  induction h with
  | nil => intro _; simp
  | cons kv t ih =>
      intro hmax
      simp only [List.map_cons, List.sum_cons, Nat.add_mul]
      exact Nat.add_le_add
        (count_le_binNum_mul_max kv.2 M (hmax kv (List.mem_cons_self kv t)) hM)
        (ih fun x hx => hmax x (List.mem_cons_of_mem kv hx))

/-- The largest candidate bin size `2·maxValue` always passes the load test
when the load factor is at least `1/2`. -/
theorem feasible_at_max (h : List (String × Nat)) (L : ℚ)
    (kv : String × Nat) (hkv : kv ∈ h) (hc : 1 ≤ kv.2) (hL : 1 / 2 ≤ L) :
    loadOf (calculateTotalSize h) (binNumFor h (getMaxValue h * 2)) (getMaxValue h * 2)
      ≤ L := by
  have hM : 1 ≤ getMaxValue h := Nat.le_trans hc (getMaxValue_ge h kv hkv)
  have hN : 1 ≤ binNumFor h (getMaxValue h * 2) :=
    binNumFor_pos h _ (by omega) kv hkv hc
  rw [loadOf_le_iff _ _ _ _ hN (by omega)]
  have hT : calculateTotalSize h ≤ binNumFor h (getMaxValue h * 2) * getMaxValue h :=
    totalSize_le_binNumFor_max (getMaxValue h) hM h (fun x hx => getMaxValue_ge h x hx)
  have h1 : (calculateTotalSize h : ℚ)
      ≤ (binNumFor h (getMaxValue h * 2) : ℚ) * (getMaxValue h : ℚ) := by
    exact_mod_cast hT
  have h2 : (binNumFor h (getMaxValue h * 2) : ℚ) * (getMaxValue h : ℚ)
      = (1 / 2) * ((binNumFor h (getMaxValue h * 2) : ℚ) * ((getMaxValue h * 2 : Nat) : ℚ)) := by
    push_cast
    ring
  have h3 : (1 / 2 : ℚ) * ((binNumFor h (getMaxValue h * 2) : ℚ) * ((getMaxValue h * 2 : Nat) : ℚ))
      ≤ L * ((binNumFor h (getMaxValue h * 2) : ℚ) * ((getMaxValue h * 2 : Nat) : ℚ)) := by
    refine mul_le_mul_of_nonneg_right hL ?_
    positivity
  calc (calculateTotalSize h : ℚ)
      ≤ (binNumFor h (getMaxValue h * 2) : ℚ) * (getMaxValue h : ℚ) := h1
  _ = (1 / 2) * ((binNumFor h (getMaxValue h * 2) : ℚ) * ((getMaxValue h * 2 : Nat) : ℚ)) := h2
  _ ≤ L * ((binNumFor h (getMaxValue h * 2) : ℚ) * ((getMaxValue h * 2 : Nat) : ℚ)) := h3

/-- Counterexample to C6 as stated: `hashCount = {x ↦ 1}` (one nonzero count)
and `load_factor = 2/5 ∈ (0, 1]`.  Both probed candidates fail the load test
(`ℓ(1) = 1`, `ℓ(2) = 1/2 > 2/5`), nothing is ever recorded, and the function
returns `bins = 0` with `bin_size = 2`, so `bins × bin_size = 0 < 1 = Σ_t
hashCount[t]`. -/
theorem C6_counterexample :
    (calculateFilterSize [("x", 1)] ⟨19, 31, 0, 0⟩ (2 / 5) "fast").bins = 0
    ∧ (calculateFilterSize [("x", 1)] ⟨19, 31, 0, 0⟩ (2 / 5) "fast").bin_size = 2
    ∧ calculateTotalSize [("x", 1)] = 1
    ∧ ¬ (calculateTotalSize [("x", 1)]
        ≤ (calculateFilterSize [("x", 1)] ⟨19, 31, 0, 0⟩ (2 / 5) "fast").bins
          * (calculateFilterSize [("x", 1)] ⟨19, 31, 0, 0⟩ (2 / 5) "fast").bin_size) := by
  have hM : getMaxValue [("x", 1)] = 1 := rfl
  have hT : calculateTotalSize [("x", 1)] = 1 := rfl
  have hev : calculateFilterSize [("x", 1)] ⟨19, 31, 0, 0⟩ (2 / 5) "fast"
      = ⟨19, 31, 0, 2⟩ := by
    simp only [calculateFilterSize, hM, hT]
    rw [searchLoop_step_gt _ _ _ _ _ _ _ _ (by norm_num) (by norm_num)
        (by norm_num [loadOf, binNumFor])]
    rw [searchLoop_step_gt _ _ _ _ _ _ _ _ (by norm_num) (by norm_num)
        (by norm_num [loadOf, binNumFor])]
    rw [searchLoop_stop _ _ _ _ _ _ _ _ (by norm_num)]
  rw [hev, hT]
  refine ⟨rfl, rfl, rfl, by decide⟩

/-- Claim C6 (amended): after `calculateFilterSize` returns on an input with
at least one nonzero count and a load factor of at least `1/2` — which
guarantees that the search records a feasible candidate — the chosen
parameters satisfy `bins × bin_size ≥ Σ_t hashCount[t]` and
`Σ_t hashCount[t] / (bins × bin_size) ≤ load_factor`.  (For smaller load
factors every probe can fail, nothing is recorded, and `bins` stays `0`; see
the counterexample.) -/
theorem C6_amended_capacity_and_load (hashCount : List (String × Nat))
    (icfConfig : ICFConfig) (load_factor : ℚ) (mode : String)
    (hnz : ∃ kv ∈ hashCount, 1 ≤ kv.2) (hL : 1 / 2 ≤ load_factor) :
    calculateTotalSize hashCount
      ≤ (calculateFilterSize hashCount icfConfig load_factor mode).bins
        * (calculateFilterSize hashCount icfConfig load_factor mode).bin_size
    ∧ loadOf (calculateTotalSize hashCount)
        (calculateFilterSize hashCount icfConfig load_factor mode).bins
        (calculateFilterSize hashCount icfConfig load_factor mode).bin_size
      ≤ load_factor := by
  obtain ⟨kv, hkv, hc⟩ := hnz
  have hM : 1 ≤ getMaxValue hashCount := Nat.le_trans hc (getMaxValue_ge hashCount kv hkv)
  have hfeas := feasible_at_max hashCount load_factor kv hkv hc hL
  have hmain := searchLoop_feasible hashCount (calculateTotalSize hashCount) load_factor
    (getMaxValue hashCount * 2 + 1) 1 (getMaxValue hashCount * 2)
    (getMaxValue hashCount * 2) 0 (by omega) (by omega)
    (Or.inl ⟨by omega, hfeas⟩)
  unfold FeasibleResult at hmain
  obtain ⟨hr2, hr1, hload⟩ := hmain
  have hbins : (calculateFilterSize hashCount icfConfig load_factor mode).bins
      = (searchLoop hashCount (calculateTotalSize hashCount) load_factor
          (getMaxValue hashCount * 2 + 1) 1 (getMaxValue hashCount * 2)
          (getMaxValue hashCount * 2) 0).2 := rfl
  have hbs : (calculateFilterSize hashCount icfConfig load_factor mode).bin_size
      = (searchLoop hashCount (calculateTotalSize hashCount) load_factor
          (getMaxValue hashCount * 2 + 1) 1 (getMaxValue hashCount * 2)
          (getMaxValue hashCount * 2) 0).1 := rfl
  rw [hbins, hbs, hr2]
  refine ⟨calculateTotalSize_le_binNumFor _ hr1 hashCount, ?_⟩
  rw [← hr2]
  exact hload

/-- Witness for C6 (amended) at `hashCount = {x ↦ 1}`, `load_factor = 1/2`:
the search picks `bins = 1`, `bin_size = 2`, capacity `2 ≥ 1` and load
`1/2 ≤ 1/2`. -/
theorem C6_witness :
    (∃ kv ∈ ([("x", 1)] : List (String × Nat)), 1 ≤ kv.2) ∧ (1 / 2 : ℚ) ≤ 1 / 2
    ∧ calculateTotalSize [("x", 1)]
        ≤ (calculateFilterSize [("x", 1)] ⟨19, 31, 0, 0⟩ (1 / 2) "fast").bins
          * (calculateFilterSize [("x", 1)] ⟨19, 31, 0, 0⟩ (1 / 2) "fast").bin_size
    ∧ loadOf (calculateTotalSize [("x", 1)])
        (calculateFilterSize [("x", 1)] ⟨19, 31, 0, 0⟩ (1 / 2) "fast").bins
        (calculateFilterSize [("x", 1)] ⟨19, 31, 0, 0⟩ (1 / 2) "fast").bin_size
      ≤ 1 / 2 :=
  ⟨⟨("x", 1), List.mem_cons_self _ _, Nat.le_refl 1⟩, le_refl _,
   (C6_amended_capacity_and_load [("x", 1)] ⟨19, 31, 0, 0⟩ (1 / 2) "fast"
      ⟨("x", 1), List.mem_cons_self _ _, Nat.le_refl 1⟩ (le_refl _)).1,
   (C6_amended_capacity_and_load [("x", 1)] ⟨19, 31, 0, 0⟩ (1 / 2) "fast"
      ⟨("x", 1), List.mem_cons_self _ _, Nat.le_refl 1⟩ (le_refl _)).2⟩

/-- Least-feasible characterisation of the binary search: when the load test
is monotone in the bin size on `[1, B]` (anything above a feasible size stays
feasible), no probe in `[1, B]` hits the load factor exactly, and the current
state satisfies the loop invariants, the search returns the smallest feasible
bin size.  Invariants: every bin size below `lo` is infeasible; the recorded
best is either still the initial value with `hi` feasible, or a recorded
feasible candidate equal to `hi + 1`. -/
theorem searchLoop_least (h : List (String × Nat)) (T : Nat) (L : ℚ) (B : Nat)
    (hmono : ∀ b b', 1 ≤ b → b ≤ b' → b' ≤ B →
      loadOf T (binNumFor h b) b ≤ L → loadOf T (binNumFor h b') b' ≤ L)
    (hneq : ∀ b, 1 ≤ b → b ≤ B → loadOf T (binNumFor h b) b ≠ L) :
    ∀ (fuel lo hi bB bN : Nat),
      1 ≤ lo → lo ≤ hi + 1 → hi ≤ B → hi + 1 - lo ≤ fuel →
      (∀ b, 1 ≤ b → b < lo → ¬ loadOf T (binNumFor h b) b ≤ L) →
      ((bB = hi + 1 ∧ bN = binNumFor h bB ∧ bB ≤ B ∧ loadOf T (binNumFor h bB) bB ≤ L)
        ∨ (lo ≤ hi ∧ bB = hi ∧ loadOf T (binNumFor h hi) hi ≤ L)) →
      ((searchLoop h T L fuel lo hi bB bN).2
          = binNumFor h (searchLoop h T L fuel lo hi bB bN).1
        ∧ 1 ≤ (searchLoop h T L fuel lo hi bB bN).1
        ∧ (searchLoop h T L fuel lo hi bB bN).1 ≤ B
        ∧ loadOf T (binNumFor h (searchLoop h T L fuel lo hi bB bN).1)
            (searchLoop h T L fuel lo hi bB bN).1 ≤ L
        ∧ ∀ b, 1 ≤ b → b < (searchLoop h T L fuel lo hi bB bN).1 →
            ¬ loadOf T (binNumFor h b) b ≤ L) := by
  intro fuel
  induction fuel with
  | zero =>
      intro lo hi bB bN h1lo hlohi hhiB hfuel hbelow hinv
      rcases hinv with ⟨hb1, hb2, hb3, hb4⟩ | ⟨hlh, _, _⟩
      · rw [searchLoop_stop h T L 0 lo hi bB bN (by omega)]
        exact ⟨hb2, by omega, hb3, hb4, fun b hb hblt => hbelow b hb (by omega)⟩
      · omega
  | succ fuel ih =>
      intro lo hi bB bN h1lo hlohi hhiB hfuel hbelow hinv
      by_cases hlh : lo ≤ hi
      · have hblo : lo ≤ (lo + hi) / 2 := by omega
        have hbhi : (lo + hi) / 2 ≤ hi := by omega
        have hb1 : 1 ≤ (lo + hi) / 2 := by omega
        have hbB : (lo + hi) / 2 ≤ B := by omega
        rcases lt_trichotomy (loadOf T (binNumFor h ((lo + hi) / 2)) ((lo + hi) / 2)) L
          with hlt | heq | hgt
        · rw [searchLoop_step_lt h T L (fuel + 1) lo hi bB bN
            (Nat.succ_ne_zero fuel) hlh hlt]
          simp only [Nat.add_sub_cancel]
          refine ih lo ((lo + hi) / 2 - 1) ((lo + hi) / 2) (binNumFor h ((lo + hi) / 2))
            h1lo (by omega) (by omega) (by omega) hbelow ?_
          left
          exact ⟨by omega, rfl, hbB, le_of_lt hlt⟩
        · exact absurd heq (hneq _ hb1 hbB)
        · rw [searchLoop_step_gt h T L (fuel + 1) lo hi bB bN
            (Nat.succ_ne_zero fuel) hlh hgt]
          simp only [Nat.add_sub_cancel]
          refine ih ((lo + hi) / 2 + 1) hi bB bN (by omega) (by omega) hhiB (by omega)
            ?_ ?_
          · intro b hb hblt
            rcases Nat.lt_or_ge b lo with hbl | hbl
            · exact hbelow b hb hbl
            · intro hFb
              exact absurd (hmono b ((lo + hi) / 2) hb (by omega) hbB hFb)
                (not_le.mpr hgt)
          · rcases hinv with ⟨hb1', hb2', hb3', hb4'⟩ | ⟨hlh', hbB', hfeas'⟩
            · exact Or.inl ⟨hb1', hb2', hb3', hb4'⟩
            · right
              refine ⟨?_, hbB', hfeas'⟩
              rcases Nat.lt_or_ge ((lo + hi) / 2) hi with hmh | hmh
              · omega
              · have hme : (lo + hi) / 2 = hi := by omega
                rw [hme] at hgt
                exact absurd hfeas' (not_le.mpr hgt)
      · rw [searchLoop_stop h T L (fuel + 1) lo hi bB bN hlh]
        rcases hinv with ⟨hb1, hb2, hb3, hb4⟩ | ⟨hlh', _, _⟩
        · exact ⟨hb2, by omega, hb3, hb4, fun b hb hblt => hbelow b hb (by omega)⟩
        · exact absurd hlh' hlh

/-- Claim C4 (amended): after a feasible probe the binary search narrows
toward SMALLER bin sizes and overwrites the recorded best, so — when the
feasibility predicate `b ↦ (ℓ(b) ≤ L)` is monotone on `[1, 2·max]`, the
largest candidate `2·max` is feasible, and no probe attains `ℓ(b) = L`
exactly — the recorded best is the SMALLEST `b` in `[1, 2·max]` with
`ℓ(b) ≤ L`, not the largest, and `bins = N(bin_size)`. -/
theorem C4_amended_least_feasible (hashCount : List (String × Nat))
    (icfConfig : ICFConfig) (load_factor : ℚ) (mode : String)
    (hnz : ∃ kv ∈ hashCount, 1 ≤ kv.2)
    (hmono : ∀ b b', 1 ≤ b → b ≤ b' → b' ≤ getMaxValue hashCount * 2 →
      loadOf (calculateTotalSize hashCount) (binNumFor hashCount b) b ≤ load_factor →
      loadOf (calculateTotalSize hashCount) (binNumFor hashCount b') b' ≤ load_factor)
    (hfeas : loadOf (calculateTotalSize hashCount)
      (binNumFor hashCount (getMaxValue hashCount * 2)) (getMaxValue hashCount * 2)
      ≤ load_factor)
    (hneq : ∀ b, 1 ≤ b → b ≤ getMaxValue hashCount * 2 →
      loadOf (calculateTotalSize hashCount) (binNumFor hashCount b) b ≠ load_factor) :
    (calculateFilterSize hashCount icfConfig load_factor mode).bins
        = binNumFor hashCount
            (calculateFilterSize hashCount icfConfig load_factor mode).bin_size
    ∧ 1 ≤ (calculateFilterSize hashCount icfConfig load_factor mode).bin_size
    ∧ (calculateFilterSize hashCount icfConfig load_factor mode).bin_size
        ≤ getMaxValue hashCount * 2
    ∧ loadOf (calculateTotalSize hashCount)
        (binNumFor hashCount
          (calculateFilterSize hashCount icfConfig load_factor mode).bin_size)
        (calculateFilterSize hashCount icfConfig load_factor mode).bin_size ≤ load_factor
    ∧ ∀ b, 1 ≤ b → b < (calculateFilterSize hashCount icfConfig load_factor mode).bin_size →
        ¬ loadOf (calculateTotalSize hashCount) (binNumFor hashCount b) b ≤ load_factor := by
  obtain ⟨kv, hkv, hc⟩ := hnz
  have hM : 1 ≤ getMaxValue hashCount := Nat.le_trans hc (getMaxValue_ge hashCount kv hkv)
  have hmain := searchLoop_least hashCount (calculateTotalSize hashCount) load_factor
    (getMaxValue hashCount * 2) hmono hneq
    (getMaxValue hashCount * 2 + 1) 1 (getMaxValue hashCount * 2)
    (getMaxValue hashCount * 2) 0
    (Nat.le_refl 1) (by omega) (Nat.le_refl _) (by omega)
    (fun b hb hblt => absurd hb (by omega))
    (Or.inr ⟨by omega, rfl, hfeas⟩)
  have hbins : (calculateFilterSize hashCount icfConfig load_factor mode).bins
      = (searchLoop hashCount (calculateTotalSize hashCount) load_factor
          (getMaxValue hashCount * 2 + 1) 1 (getMaxValue hashCount * 2)
          (getMaxValue hashCount * 2) 0).2 := rfl
  have hbs : (calculateFilterSize hashCount icfConfig load_factor mode).bin_size
      = (searchLoop hashCount (calculateTotalSize hashCount) load_factor
          (getMaxValue hashCount * 2 + 1) 1 (getMaxValue hashCount * 2)
          (getMaxValue hashCount * 2) 0).1 := rfl
  rw [hbins, hbs]
  exact hmain

/-- Counterexample to C4 as stated: `hashCount = {a ↦ 1, b ↦ 1}`, `L = 1`.
The first probe is `b = 1` with `ℓ(1) = 1 = L`, so the search records it and
stops: `bin_size = 1`.  But `b = 2` also lies in `[1, 2·max]` and satisfies
`ℓ(2) = 1/2 ≤ L`, so the chosen `bin_size` is not the largest `b` in range
passing the load test. -/
theorem C4_counterexample :
    (calculateFilterSize [("a", 1), ("b", 1)] ⟨19, 31, 0, 0⟩ 1 "fast").bin_size = 1
    ∧ 2 ≤ getMaxValue [("a", 1), ("b", 1)] * 2
    ∧ loadOf (calculateTotalSize [("a", 1), ("b", 1)]) (binNumFor [("a", 1), ("b", 1)] 2) 2
        ≤ 1
    ∧ ¬ (2 ≤ (calculateFilterSize [("a", 1), ("b", 1)] ⟨19, 31, 0, 0⟩ 1 "fast").bin_size) := by
  have hM : getMaxValue [("a", 1), ("b", 1)] = 1 := rfl
  have hT : calculateTotalSize [("a", 1), ("b", 1)] = 2 := rfl
  have hev : calculateFilterSize [("a", 1), ("b", 1)] ⟨19, 31, 0, 0⟩ 1 "fast"
      = ⟨19, 31, 2, 1⟩ := by
    simp only [calculateFilterSize, hM, hT]
    rw [searchLoop_step_eq _ _ _ _ _ _ _ _ (by norm_num) (by norm_num)
      (by norm_num [loadOf, binNumFor])]
    decide
  rw [hev, hM, hT]
  refine ⟨rfl, by decide, by norm_num [loadOf, binNumFor], by decide⟩

/-- Witness for C4 (amended) at `hashCount = {x ↦ 1}`, `L = 3/4`: the
feasibility predicate is monotone on `[1, 2]` (`ℓ(1) = 1`, `ℓ(2) = 1/2`), no
probe hits `3/4`, and the search returns the smallest feasible bin size `2`
(`bins = 1`), while `1` is infeasible. -/
theorem C4_witness :
    (calculateFilterSize [("x", 1)] ⟨19, 31, 0, 0⟩ (3 / 4) "fast").bin_size = 2
    ∧ loadOf (calculateTotalSize [("x", 1)]) (binNumFor [("x", 1)] 2) 2 ≤ 3 / 4
    ∧ ¬ loadOf (calculateTotalSize [("x", 1)]) (binNumFor [("x", 1)] 1) 1 ≤ 3 / 4 := by
  have hM : getMaxValue [("x", 1)] = 1 := rfl
  have hT : calculateTotalSize [("x", 1)] = 1 := rfl
  have hmono : ∀ b b', 1 ≤ b → b ≤ b' → b' ≤ getMaxValue [("x", 1)] * 2 →
      loadOf (calculateTotalSize [("x", 1)]) (binNumFor [("x", 1)] b) b ≤ 3 / 4 →
      loadOf (calculateTotalSize [("x", 1)]) (binNumFor [("x", 1)] b') b' ≤ 3 / 4 := by
    intro b b' h1 h2 h3 hF
    rw [hM] at h3
    have h1' : 1 ≤ b' := Nat.le_trans h1 h2
    interval_cases b' <;> interval_cases b <;>
      first
        | exact hF
        | norm_num [hT, loadOf, binNumFor]
  have hfeas : loadOf (calculateTotalSize [("x", 1)])
      (binNumFor [("x", 1)] (getMaxValue [("x", 1)] * 2)) (getMaxValue [("x", 1)] * 2)
      ≤ 3 / 4 := by
    norm_num [hM, hT, loadOf, binNumFor]
  have hneq : ∀ b, 1 ≤ b → b ≤ getMaxValue [("x", 1)] * 2 →
      loadOf (calculateTotalSize [("x", 1)]) (binNumFor [("x", 1)] b) b ≠ 3 / 4 := by
    intro b h1 h2
    rw [hM] at h2
    interval_cases b <;> norm_num [hT, loadOf, binNumFor]
  obtain ⟨hc1, hc2, hc3, hc4, hc5⟩ := C4_amended_least_feasible [("x", 1)] ⟨19, 31, 0, 0⟩
    (3 / 4) "fast" ⟨("x", 1), List.mem_cons_self _ _, Nat.le_refl 1⟩ hmono hfeas hneq
  rw [hM] at hc3
  have hs : (calculateFilterSize [("x", 1)] ⟨19, 31, 0, 0⟩ (3 / 4) "fast").bin_size = 1
      ∨ (calculateFilterSize [("x", 1)] ⟨19, 31, 0, 0⟩ (3 / 4) "fast").bin_size = 2 := by
    omega
  rcases hs with hs | hs
  · rw [hs] at hc4
    rw [hT] at hc4
    norm_num [loadOf, binNumFor] at hc4
  · refine ⟨hs, ?_, ?_⟩
    · rw [hs] at hc4
      exact hc4
    · exact hc5 1 (Nat.le_refl 1) (by omega)

/-- Evaluation of the filter sizer at `hashCount = {a ↦ 1, b ↦ 2}`,
`load_factor = 9/10`: probes `b = 2` (load `3/4`, recorded) then `b = 1`
(load `1`, rejected), returning `bins = 2`, `bin_size = 2`. -/
theorem calcFS_pair_eval :
    calculateFilterSize [("a", 1), ("b", 2)] ⟨19, 31, 0, 0⟩ (9 / 10) "fast"
      = ⟨19, 31, 2, 2⟩ := by
  have hM : getMaxValue [("a", 1), ("b", 2)] = 2 := rfl
  have hT : calculateTotalSize [("a", 1), ("b", 2)] = 3 := rfl
  simp only [calculateFilterSize, hM, hT]
  rw [searchLoop_step_lt _ _ _ _ _ _ _ _ (by norm_num) (by norm_num)
      (by norm_num [loadOf, binNumFor]),
    searchLoop_step_gt _ _ _ _ _ _ _ _ (by norm_num) (by norm_num)
      (by norm_num [loadOf, binNumFor]),
    searchLoop_stop _ _ _ _ _ _ _ _ (by norm_num)]
  decide

/-- Claim C1, the code evaluated at a failing input: for
`hashCount = {a ↦ 1, b ↦ 2}` and `load_factor = 9/10` the sizer picks
`bin_size = 2` (and `bins = 2`), and `calculateTaxidMapBins` then assigns
`taxidBins = {a ↦ 0, b ↦ 1}`: the width of `a`'s range is `0 − 0 = 0`, not
`ceil(1/2) = 1` — `std::ceil(count / bin_size)` is applied to C++ integer
division, so widths are floors, not ceilings. -/
theorem C1_width_floor_eval :
    calculateFilterSize [("a", 1), ("b", 2)] ⟨19, 31, 0, 0⟩ (9 / 10) "fast"
      = ⟨19, 31, 2, 2⟩
    ∧ calculateTaxidMapBins 1 ⟨19, 31, 2, 2⟩ [("a", 1), ("b", 2)]
      = [("a", 0), ("b", 1)]
    ∧ ((calculateTaxidMapBins 1 ⟨19, 31, 2, 2⟩ [("a", 1), ("b", 2)]).getD 0 ("", 0)).2 - 0
      = 0
    ∧ (1 + 2 - 1) / 2 = 1
    ∧ (0 : Nat) ≠ 1 :=
  ⟨calcFS_pair_eval, by decide, by decide, by decide, by decide⟩

/-- Claim C3, the code evaluated at a failing input: with the same input as
for C1 the sizer sets `bins = 2`, but the taxid map's bin widths are floors,
so their sum — and the last prefix value — is `1 ≠ 2 = bins`. -/
theorem C3_last_prefix_ne_bins_eval :
    calculateFilterSize [("a", 1), ("b", 2)] ⟨19, 31, 0, 0⟩ (9 / 10) "fast"
      = ⟨19, 31, 2, 2⟩
    ∧ ((calculateTaxidMapBins 1 ⟨19, 31, 2, 2⟩ [("a", 1), ("b", 2)]).getD 1 ("", 0)).2 = 1
    ∧ (binNumsOf ⟨19, 31, 2, 2⟩ [("a", 1), ("b", 2)]).sum = 1
    ∧ (1 : Nat) ≠ 2 :=
  ⟨calcFS_pair_eval, by decide, by decide, by decide⟩

/-- Claim C2, the code evaluated at a failing input: with every count zero
(`hashCount = {t ↦ 0}`) the bracket is empty (`maxBinSize = maxValue * 2 = 0`
is below `minBinSize = 1`), the loop body never runs, and the initial best is
kept: `bins = 0` and `bin_size = 0` — not the claimed `bin_size = 1`.
(Downstream, `calculateTaxidMapBins` then divides each count by
`bin_size = 0`.) -/
theorem C2_all_zero_eval :
    calculateFilterSize [("t", 0)] ⟨19, 31, 0, 0⟩ (1 / 2) "fast" = ⟨19, 31, 0, 0⟩
    ∧ (calculateFilterSize [("t", 0)] ⟨19, 31, 0, 0⟩ (1 / 2) "fast").bin_size ≠ 1 :=
  ⟨by decide, by decide⟩

end ChimeraBuild
